import Mathlib

/-!
Verification of the `union-find` crate (src/src/lib.rs).

The crate exposes a single type `UnionFind<T>` holding a `value : T` and an
owned `parent : Option<Box<UnionFind<T>>>`, with three operations:

* `make_set(value)` builds `UnionFind { value, parent: None }`;
* `find(self)` recursively follows the owned parent until it is `None` and
  returns that node by value;
* `union(self, other)` mutates `other` by setting `other.parent = Some(self)`.

Because `parent` is an owned box, a node is literally a finite chain of
values, which we embed as a nested inductive type below.  `union` mutates
its `other` argument in place; we embed it as a function returning the
updated node.
-/

/-- Shallow embedding of the Rust struct `UnionFind<T>`: a `value` of type
`T` together with an owned optional `parent` node. -/
inductive UnionFind (T : Type) : Type where
  | mk (value : T) (parent : Option (UnionFind T))
  deriving Repr

namespace UnionFind

variable {T : Type}

/-- Field accessor for `value`. -/
def value : UnionFind T → T
  | .mk v _ => v

/-- Field accessor for `parent`. -/
def parent : UnionFind T → Option (UnionFind T)
  | .mk _ p => p

/-- Embedding of `UnionFind::make_set`: wraps `value` into a node whose
parent is `None`. -/
def make_set (value : T) : UnionFind T :=
  .mk value none

/-- Embedding of `UnionFind::find`: `match self.parent { Some(p) => p.find(),
None => self }`. -/
def find : UnionFind T → UnionFind T
  | .mk v none => .mk v none
  | .mk _ (some p) => p.find

/-- Embedding of `UnionFind::union`: the Rust code runs
`other.parent = Some(box self)`, mutating `other` in place; we return the
updated `other`. -/
def union (self other : UnionFind T) : UnionFind T :=
  .mk other.value (some self)

/-- Length of the parent chain of a node (0 for a root). -/
def depth : UnionFind T → Nat
  | .mk _ none => 0
  | .mk _ (some p) => p.depth + 1

/-- The parent chain of a node, starting at the node itself and ending at
the root. -/
def chainList : UnionFind T → List (UnionFind T)
  | .mk v none => [.mk v none]
  | .mk v (some p) => .mk v (some p) :: p.chainList

/-- Fuel-indexed variant of `find`, used to state termination of the Rust
recursion explicitly: it returns `none` when the fuel runs out before a
root is reached. -/
def findFuel : Nat → UnionFind T → Option (UnionFind T)
  | 0, _ => none
  | fuel + 1, .mk v none => some (.mk v none)
  | fuel + 1, .mk _ (some p) => findFuel fuel p

/-- Embedding of the derived `PartialEq` on `UnionFind<T>`: values are
compared and the parent chains are compared recursively. -/
def beq [BEq T] : UnionFind T → UnionFind T → Bool
  | .mk v1 none, .mk v2 none => v1 == v2
  | .mk v1 (some a), .mk v2 (some b) => v1 == v2 && beq a b
  | .mk _ none, .mk _ (some _) => false
  | .mk _ (some _), .mk _ none => false

theorem beq_iff_eq [BEq T] [LawfulBEq T] :
    ∀ a b : UnionFind T, beq a b = true ↔ a = b
  | .mk v1 none, .mk v2 none => by
    simp [beq]
  | .mk v1 (some a), .mk v2 (some b) => by
    simp [beq, beq_iff_eq a b]
  | .mk _ none, .mk _ (some _) => by
    simp [beq]
  | .mk _ (some _), .mk _ none => by
    simp [beq]

instance [DecidableEq T] : DecidableEq (UnionFind T) := fun a b =>
  decidable_of_iff (beq a b = true) (beq_iff_eq a b)

theorem chainList_ne_nil (n : UnionFind T) : n.chainList ≠ [] := by
  cases n with
  | mk v p => cases p <;> simp [chainList]

theorem find_parent_none : ∀ n : UnionFind T, n.find.parent = none
  | .mk v none => rfl
  | .mk v (some p) => find_parent_none p

theorem getLast?_chainList : ∀ n : UnionFind T, n.chainList.getLast? = some n.find
  | .mk v none => rfl
  | .mk v (some p) => by
    have hp := getLast?_chainList p
    have hne := chainList_ne_nil p
    cases hcl : p.chainList with
    | nil => exact absurd hcl hne
    | cons x xs =>
      simp only [chainList, find, hcl, List.getLast?_cons_cons]
      rw [← hcl, hp]

theorem depth_le_of_mem_chainList :
    ∀ n b : UnionFind T, b ∈ n.chainList → b.depth ≤ n.depth
  | .mk v none, b, hb => by
    simp [chainList] at hb
    simp [hb]
  | .mk v (some p), b, hb => by
    simp only [chainList, List.mem_cons] at hb
    rcases hb with hb | hb
    · simp [hb]
    · have := depth_le_of_mem_chainList p b hb
      simp [depth]
      omega

theorem chainList_pairwise_depth :
    ∀ n : UnionFind T, n.chainList.Pairwise (fun a b => b.depth < a.depth)
  | .mk v none => by simp [chainList]
  | .mk v (some p) => by
    refine List.Pairwise.cons ?_ (chainList_pairwise_depth p)
    intro b hb
    have := depth_le_of_mem_chainList p b hb
    simp [depth]
    omega

theorem chainList_length : ∀ n : UnionFind T, n.chainList.length = n.depth + 1
  | .mk v none => rfl
  | .mk v (some p) => by
    simp [chainList, depth, chainList_length p]

theorem findFuel_depth_succ :
    ∀ n : UnionFind T, findFuel (n.depth + 1) n = some n.find
  | .mk v none => rfl
  | .mk v (some p) => by
    simp only [depth, find, findFuel]
    exact findFuel_depth_succ p

end UnionFind

/-- C1: for every node `n`, `find` follows the documented algorithm: if
`n.parent` is `None` it returns `n` itself, if `n.parent` is `Some p` it
returns `find p`; the returned node is the last node of `n`'s parent chain
and its own parent field is `None`. -/
theorem find_spec {T : Type} (n : UnionFind T) :
    (n.parent = none → n.find = n) ∧
    (∀ p, n.parent = some p → n.find = p.find) ∧
    n.find.parent = none ∧
    n.chainList.getLast? = some n.find := by
  refine ⟨?_, ?_, UnionFind.find_parent_none n, UnionFind.getLast?_chainList n⟩
  · intro h
    cases n with
    | mk v p =>
      simp [UnionFind.parent] at h
      simp [h, UnionFind.find]
  · intro p h
    cases n with
    | mk v q =>
      simp [UnionFind.parent] at h
      simp [h, UnionFind.find]

/-- Witness for C1: the concrete node with value 2 and parent `make_set 1`
satisfies each clause of `find_spec`. -/
theorem find_spec_witness :
    (UnionFind.mk 2 (some (UnionFind.make_set 1))).find = (UnionFind.make_set 1).find ∧
    (UnionFind.mk 2 (some (UnionFind.make_set 1))).find.parent = none ∧
    (UnionFind.make_set (1 : Nat)).find = UnionFind.make_set 1 :=
  ⟨(find_spec (UnionFind.mk 2 (some (UnionFind.make_set 1)))).2.1 _ rfl,
   (find_spec (UnionFind.mk 2 (some (UnionFind.make_set 1)))).2.2.1,
   (find_spec (UnionFind.make_set 1)).1 rfl⟩

/-- C2: `union a b` sets `b.parent` to `Some a` (with `a` stored unchanged)
and leaves `b`'s value unchanged; no `find` is performed, so no other
parent field is modified. -/
theorem union_spec {T : Type} (a b : UnionFind T) :
    (a.union b).parent = some a ∧ (a.union b).value = b.value :=
  ⟨rfl, rfl⟩

/-- C3 counterexample: with `a = make_set 1` and `b = make_set 2`,
`union a b` does NOT make `a`'s representative point at `b`: instead `b`
points at `a`, the representative of the merged set is `a` (value 1, not 2),
and `a` still has `parent = None` inside the result. -/
theorem union_direction_cex :
    ((UnionFind.make_set 1).union (UnionFind.make_set 2)).parent
        = some (UnionFind.make_set 1) ∧
    (UnionFind.make_set (1 : Nat)).parent = none ∧
    ((UnionFind.make_set 1).union (UnionFind.make_set 2)).find
        = UnionFind.make_set 1 ∧
    ((UnionFind.make_set 1).union (UnionFind.make_set 2)).find
        ≠ (UnionFind.make_set (2 : Nat)).find := by
  refine ⟨rfl, rfl, rfl, ?_⟩
  decide

/-- C3 amended: `union(a, b)` merges the set containing `b` into the set
containing `a`, by making `b` point directly at `a`; afterwards the
representative of the merged set is `a`'s representative. -/
theorem union_merges_b_into_a {T : Type} (a b : UnionFind T) :
    (a.union b).parent = some a ∧ (a.union b).find = a.find :=
  ⟨rfl, rfl⟩

/-- C4: if `a` is a root then after `union a b` the representative found
from the updated `b` is `a` itself, so its value is `a.value`. -/
theorem union_reachability {T : Type} (a b : UnionFind T)
    (h : a.parent = none) :
    (a.union b).find = a ∧ (a.union b).find.value = a.value := by
  cases a with
  | mk v p =>
    simp [UnionFind.parent] at h
    subst h
    exact ⟨rfl, rfl⟩

/-- Witness for C4: the concrete scenario from the spec, with
`x = make_set "Foo"`, `y = make_set "Bar"`: after `union x y`, finding from
the updated `y` yields `x`, and its representative differs from that of
`make_set "Baz"`. -/
theorem union_reachability_witness :
    ((UnionFind.make_set "Foo").union (UnionFind.make_set "Bar")).find
        = UnionFind.make_set "Foo" ∧
    ((UnionFind.make_set "Foo").union (UnionFind.make_set "Bar")).find.value
        = "Foo" ∧
    ((UnionFind.make_set "Foo").union (UnionFind.make_set "Bar")).find
        ≠ (UnionFind.make_set "Baz").find :=
  ⟨(union_reachability (UnionFind.make_set "Foo") (UnionFind.make_set "Bar") rfl).1,
   (union_reachability (UnionFind.make_set "Foo") (UnionFind.make_set "Bar") rfl).2,
   by decide⟩

/-- C5 counterexample: a node's parent field CAN be reassigned: after
`union (make_set 1) b` the node `b` has parent `Some (make_set 1)`, and a
second `union (make_set 3)` on the same node overwrites it with
`Some (make_set 3)`. -/
theorem parent_reassigned_cex :
    ((UnionFind.make_set 1).union (UnionFind.make_set 2)).parent
        = some (UnionFind.make_set 1) ∧
    ((UnionFind.make_set 3).union
        ((UnionFind.make_set 1).union (UnionFind.make_set 2))).parent
        = some (UnionFind.make_set 3) ∧
    some (UnionFind.make_set (3 : Nat)) ≠ some (UnionFind.make_set 1) := by
  refine ⟨rfl, rfl, ?_⟩
  decide

/-- C5 amended: `union a b` unconditionally sets `b.parent = Some a`,
overwriting whatever parent `b` had before; so a later `union` targeting the
same node reassigns its parent reference (while `make_set` and `find` never
modify any parent field). -/
theorem union_overwrites_parent {T : Type} (a : UnionFind T) (v : T)
    (old : Option (UnionFind T)) :
    (a.union (UnionFind.mk v old)).parent = some a :=
  rfl

/-- C6: `make_set v` returns a node whose value is `v` and whose parent is
`None`. -/
theorem make_set_spec {T : Type} (v : T) :
    (UnionFind.make_set v).value = v ∧ (UnionFind.make_set v).parent = none :=
  ⟨rfl, rfl⟩

/-- C7: `find` is the identity on representatives: if `n.parent = None`
then `find n = n`. -/
theorem find_root_id {T : Type} (n : UnionFind T) (h : n.parent = none) :
    n.find = n := by
  cases n with
  | mk v p =>
    simp [UnionFind.parent] at h
    simp [h, UnionFind.find]

/-- Witness for C7: `find (make_set 1) = make_set 1`. -/
theorem find_root_id_witness :
    (UnionFind.make_set (1 : Nat)).find = UnionFind.make_set 1 :=
  find_root_id (UnionFind.make_set 1) rfl

/-- C8: the derived equality on nodes is structural (equal values and
recursively equal parent chains), so two independently created singletons
with the same value are equal: `beq (make_set v) (make_set v) = true`. -/
theorem beq_structural {T : Type} [BEq T] [LawfulBEq T] :
    (∀ a b : UnionFind T, UnionFind.beq a b = true ↔ a = b) ∧
    (∀ v : T, UnionFind.beq (UnionFind.make_set v) (UnionFind.make_set v) = true) := by
  refine ⟨UnionFind.beq_iff_eq, ?_⟩
  intro v
  simp [UnionFind.make_set, UnionFind.beq]

/-- Witness for C8: `make_set 1 == make_set 1` over `Nat`. -/
theorem beq_structural_witness :
    UnionFind.beq (UnionFind.make_set (1 : Nat)) (UnionFind.make_set 1) = true :=
  (beq_structural).2 1

/-- C9: `find` always terminates: running the fuel-indexed recursion with
fuel `depth n + 1` never exhausts the fuel and returns exactly `find n`.
(In the embedding every node is a finite acyclic chain, so the claim's
precondition is automatically satisfied.) -/
theorem find_terminates {T : Type} (n : UnionFind T) :
    UnionFind.findFuel (n.depth + 1) n = some n.find :=
  UnionFind.findFuel_depth_succ n

/-- C10: every `UnionFind` value is a finite tree: the parent chain of any
node has no repeated node (depths strictly decrease along it, so a cyclic
chain is unrepresentable), its length is `depth n + 1`, and `find`
terminates within that many steps with no precondition. -/
theorem acyclic_invariant {T : Type} (n : UnionFind T) :
    n.chainList.Pairwise (fun a b => a ≠ b) ∧
    n.chainList.length = n.depth + 1 ∧
    UnionFind.findFuel n.chainList.length n = some n.find := by
  refine ⟨?_, UnionFind.chainList_length n, ?_⟩
  · exact (UnionFind.chainList_pairwise_depth n).imp (by
      intro a b hlt heq
      subst heq
      exact lt_irrefl _ hlt)
  · rw [UnionFind.chainList_length n]
    exact UnionFind.findFuel_depth_succ n
